import Mathlib

/-!
Verification of the SHARD slice-to-volume reconstruction operator
(`src/dwi/svr/recon.h`, `cmd/dwirecon.cpp`).

The development shallowly embeds the `ReconMatrix` linear operator and the
pipeline setup code.  Machine floats are idealised as elements of a linear
ordered field `α` (exact arithmetic); `size_t` arithmetic is modelled on `ℤ`
with an explicit `% 2 ^ 64` where the C++ code performs unsigned arithmetic.

External collaborators that are not part of this repository are modelled as
parameters (fields or function arguments):
* the slice-sensitivity profile `SSP<float>` and the sinc interpolator
  `SincPSF<float>` come from `dwi/svr/psf.h`, which is not in the repository
  sources; they enter `ReconMatrix` as the fields `ssp` and `sinc`;
* `Eigen::AngleAxisf` rotation composition enters as the field `rotFn`; its
  concrete instantiation over `ℝ` is `get_rotation` below, translated from
  `recon.h` line 248;
* `Math::SH::delta` and the `Shells` classifier (declared out of scope by the
  spec) enter `init_Y` as the parameters `delta`, `shellidx` and `basis`.
-/

variable {α : Type} [LinearOrderedField α] [FloorRing α]

/-- 3-vectors, modelling `Eigen::Vector3f` / `Eigen::Vector3i` as tuples. -/
abbrev Vec3 (β : Type) : Type := β × β × β

/-- A 3 × 3 matrix with explicit entries, modelling `Eigen::Matrix3f`. -/
structure Mat3 (β : Type) where
  m00 : β
  m01 : β
  m02 : β
  m10 : β
  m11 : β
  m12 : β
  m20 : β
  m21 : β
  m22 : β

/-- Matrix-vector product. -/
def Mat3.mulVec [Mul β] [Add β] (M : Mat3 β) (v : Vec3 β) : Vec3 β :=
  (M.m00 * v.1 + M.m01 * v.2.1 + M.m02 * v.2.2,
   M.m10 * v.1 + M.m11 * v.2.1 + M.m12 * v.2.2,
   M.m20 * v.1 + M.m21 * v.2.1 + M.m22 * v.2.2)

/-- Matrix product. -/
def Mat3.mul [Mul β] [Add β] (M N : Mat3 β) : Mat3 β :=
  ⟨M.m00 * N.m00 + M.m01 * N.m10 + M.m02 * N.m20,
   M.m00 * N.m01 + M.m01 * N.m11 + M.m02 * N.m21,
   M.m00 * N.m02 + M.m01 * N.m12 + M.m02 * N.m22,
   M.m10 * N.m00 + M.m11 * N.m10 + M.m12 * N.m20,
   M.m10 * N.m01 + M.m11 * N.m11 + M.m12 * N.m21,
   M.m10 * N.m02 + M.m11 * N.m12 + M.m12 * N.m22,
   M.m20 * N.m00 + M.m21 * N.m10 + M.m22 * N.m20,
   M.m20 * N.m01 + M.m21 * N.m11 + M.m22 * N.m21,
   M.m20 * N.m02 + M.m21 * N.m12 + M.m22 * N.m22⟩

/-- The identity matrix. -/
def Mat3.one [Zero β] [One β] : Mat3 β := ⟨1, 0, 0, 0, 1, 0, 0, 0, 1⟩

/-- An affine transform (`transform_type`, i.e. `Eigen::Transform<·,3,AffineCompact>`):
a linear part and a translation. -/
structure Aff3 (β : Type) where
  lin : Mat3 β
  tr : Vec3 β

/-- Apply an affine transform to a point: `T * p = lin * p + tr`. -/
def Aff3.apply [Mul β] [Add β] (T : Aff3 β) (v : Vec3 β) : Vec3 β :=
  ((T.lin.mulVec v).1 + T.tr.1,
   (T.lin.mulVec v).2.1 + T.tr.2.1,
   (T.lin.mulVec v).2.2 + T.tr.2.2)

/-- Composition of affine transforms, `(T1 * T2) p = T1 (T2 p)`. -/
def Aff3.comp [Mul β] [Add β] (T1 T2 : Aff3 β) : Aff3 β :=
  ⟨T1.lin.mul T2.lin, T1.apply T2.tr⟩

/-- The identity affine transform. -/
def Aff3.id [Zero β] [One β] : Aff3 β := ⟨Mat3.one, (0, 0, 0)⟩

theorem Aff3.comp_apply [CommRing β] (T1 T2 : Aff3 β) (v : Vec3 β) :
    (T1.comp T2).apply v = T1.apply (T2.apply v) := by
  obtain ⟨⟨a, b, c, d, e, f, g, h, i⟩, ⟨tx, ty, tz⟩⟩ := T1
  obtain ⟨⟨a', b', c', d', e', f', g', h', i'⟩, ⟨tx', ty', tz'⟩⟩ := T2
  obtain ⟨x, y, z⟩ := v
  simp only [Aff3.comp, Aff3.apply, Mat3.mul, Mat3.mulVec, Prod.mk.injEq]
  refine ⟨by ring, by ring, by ring⟩

/-- One row of the motion parameter table: translation `(tx,ty,tz)` in scanner
space and intrinsic X-Y-Z Euler rotation angles `(rx,ry,rz)`. -/
structure MotionRow (β : Type) where
  tx : β
  ty : β
  tz : β
  rx : β
  ry : β
  rz : β

/-- The all-zero motion row. -/
def MotionRow.zero [Zero β] : MotionRow β := ⟨0, 0, 0, 0, 0, 0⟩

/-- Shallow embedding of `MR::DWI::ReconMatrix` (`recon.h` lines 60-320).
The fields mirror the data held by the C++ class after construction:
grid dimensions, the motion table, the two grid transforms
`T0.scanner2voxel` / `T0.voxel2scanner`, the q-space design matrix `Y`
(built by `init_Y`) and the slice-weight matrix `W` (set by `setW`).
`rotFn`, `ssp`, `sinc` stand for the external kernels (see file header). -/
structure ReconMatrix (β : Type) where
  lmax : ℤ
  nx : ℕ
  ny : ℕ
  nz : ℕ
  nv : ℕ
  nc : ℕ
  motion : List (MotionRow β)
  s2v : Aff3 β
  v2s : Aff3 β
  rotFn : β → β → β → Mat3 β
  ssp : ℤ → β
  sinc : Vec3 β → β
  Y : ℕ → ℕ → β
  Wrows : ℕ
  Wcols : ℕ
  W : ℕ → ℕ → β

/-- `nxy = nx*ny` (`recon.h` line 90). -/
def ReconMatrix.nxy (R : ReconMatrix α) : ℕ := R.nx * R.ny

/-- `nxyz`, the number of voxels of one scalar recon volume (`nxy*nz`,
cf. `recon.h` line 376). -/
def ReconMatrix.nxyz (R : ReconMatrix α) : ℕ := R.nxy * R.nz

/-- `rows() { return nv*nz*nxy; }` (`recon.h` line 73). -/
def ReconMatrix.rows (R : ReconMatrix α) : ℕ := R.nv * R.nz * R.nxy

/-- `cols() { return nxy*nz*nc; }` (`recon.h` line 74). -/
def ReconMatrix.cols (R : ReconMatrix α) : ℕ := R.nxy * R.nz * R.nc

/-- `get_grad_idx(v,z) = v*nz + z` (`recon.h` line 104). -/
def ReconMatrix.get_grad_idx (R : ReconMatrix α) (v z : ℕ) : ℕ := v * R.nz + z

/-- `get_idx(x,y,z) = z*nxy + y*nx + x` (`recon.h` line 280). -/
def ReconMatrix.get_idx (R : ReconMatrix α) (p : Vec3 ℤ) : ℤ :=
  p.2.2 * (R.nxy : ℤ) + p.2.1 * (R.nx : ℤ) + p.1

/-- `inbounds(x,y,z)` (`recon.h` line 286). -/
def ReconMatrix.inbounds (R : ReconMatrix α) (p : Vec3 ℤ) : Prop :=
  0 ≤ p.1 ∧ p.1 < (R.nx : ℤ) ∧ 0 ≤ p.2.1 ∧ p.2.1 < (R.ny : ℤ) ∧
    0 ≤ p.2.2 ∧ p.2.2 < (R.nz : ℤ)

instance (R : ReconMatrix α) (p : Vec3 ℤ) : Decidable (R.inbounds p) := by
  unfold ReconMatrix.inbounds
  exact inferInstance

/-- `get_transform(p)` (`recon.h` lines 258-264): translation from the first
three motion parameters, linear part from the Euler angles. -/
def ReconMatrix.get_transform (R : ReconMatrix α) (p : MotionRow α) : Aff3 α :=
  ⟨R.rotFn p.rx p.ry p.rz, (p.tx, p.ty, p.tz)⟩

/-- `get_Ts2r(v,z)` (`recon.h` lines 267-277): the slice-to-recon transform
`T0.scanner2voxel * T_motion * T0.voxel2scanner`, taking motion row `v` when
the motion table has `nv` rows and row `v*nz+z` otherwise. -/
def ReconMatrix.get_Ts2r (R : ReconMatrix α) (v z : ℕ) : Aff3 α :=
  if R.motion.length = R.nv then
    (R.s2v.comp (R.get_transform (R.motion.getD v MotionRow.zero))).comp R.v2s
  else
    (R.s2v.comp (R.get_transform (R.motion.getD (v * R.nz + z) MotionRow.zero))).comp R.v2s

/-- `get_sliceY(v,z) = Y.row(v*nz+z)` (`recon.h` lines 151-154). -/
def ReconMatrix.get_sliceY (R : ReconMatrix α) (v z j : ℕ) : α :=
  R.Y (v * R.nz + z) j

/-- The slice geometry matrix `get_sliceM(v,z)` (`recon.h` lines 108-149),
as the function sending a (row, column) pair to the accumulated entry.
The C++ loops over `y`, `x` (row `i = y*nx + x`), the SSP offsets
`s = -2..2` and the sinc cube `rx,ry,rz = -2..1` become sums, and each
`Ms.coeffRef(i, get_idx p) += ssp(s) * sinc(pr - p)` becomes a summand guarded
by the conditions `i = y*nx+x` and `j = get_idx p` (entries outside the grid
are skipped by `inbounds`).  The source coordinate `z+s` is computed by the
C++ in `size_t` arithmetic (`Eigen::Vector3f(x, y, z+s)` with `z : size_t`,
`s : int`), hence the explicit `% 2^64` on the z-component. -/
def ReconMatrix.get_sliceM (R : ReconMatrix α) (v z : ℕ) (i : ℕ) (j : ℤ) : α :=
  ∑ y ∈ Finset.range R.ny, ∑ x ∈ Finset.range R.nx,
    ∑ s ∈ Finset.Icc (-2 : ℤ) 2,
      ∑ rx ∈ Finset.Icc (-2 : ℤ) 1, ∑ ry ∈ Finset.Icc (-2 : ℤ) 1, ∑ rz ∈ Finset.Icc (-2 : ℤ) 1,
        let ps : Vec3 α := ((x : α), (y : α), ((((z : ℤ) + s) % 2 ^ 64 : ℤ) : α))
        let pr : Vec3 α := (R.get_Ts2r v z).apply ps
        let p : Vec3 ℤ := (⌈pr.1⌉ + rx, ⌈pr.2.1⌉ + ry, ⌈pr.2.2⌉ + rz)
        if i = y * R.nx + x ∧ R.inbounds p ∧ j = R.get_idx p then
          R.ssp s * R.sinc (pr.1 - (p.1 : α), pr.2.1 - (p.2.1 : α), pr.2.2 - (p.2.2 : α))
        else 0

/-- The contribution of slice `(v,z)` to the forward product
(`recon.h` lines 381-385): with `Yw = W(z,v) * get_sliceY(v,z)`, the slice's
output window receives `∑_j Yw[j] * (M * x.segment(j*nxyz, nxyz))`. -/
def ReconMatrix.sliceForward (R : ReconMatrix α) (v z : ℕ) (x : ℕ → α) (i : ℕ) : α :=
  ∑ j ∈ Finset.range R.nc,
    (R.W z v * R.get_sliceY v z j) *
      ∑ l ∈ Finset.range R.nxyz, R.get_sliceM v z i (l : ℤ) * x (j * R.nxyz + l)

/-- The forward product `A * x` of `generic_product_impl<ReconMatrix,Rhs>`
(`recon.h` lines 368-389): entry `k` of the output.  The loops run over
`v < W.cols()` and `z < W.rows()`; slice `(v,z)` accumulates into the output
segment starting at `get_grad_idx(v,z)*nxy`, so entry `k` receives the
contributions of all slices with `get_grad_idx(v,z) = k / nxy`, at window
offset `k % nxy`. -/
def ReconMatrix.forwardProd (R : ReconMatrix α) (x : ℕ → α) (k : ℕ) : α :=
  ∑ v ∈ Finset.range R.Wcols, ∑ z ∈ Finset.range R.Wrows,
    if R.get_grad_idx v z = k / R.nxy then R.sliceForward v z x (k % R.nxy) else 0

/-- The adjoint product `Aᵀ * r` of `generic_product_impl<ReconMatrixAdjoint,Rhs>`
(`recon.h` lines 401-426): entry `m` of the output.  Each slice `(v,z)`
computes `Mᵀ * r.segment(get_grad_idx(v,z)*nxy, nxy)` and adds
`(W(z,v) * get_sliceY(v,z))[j]` times it into segment `j`; entry
`m = j*nxyz + l` therefore receives, from every slice, the weighted entry `l`
of the scattered window. -/
def ReconMatrix.adjointProd (R : ReconMatrix α) (r : ℕ → α) (m : ℕ) : α :=
  ∑ v ∈ Finset.range R.Wcols, ∑ z ∈ Finset.range R.Wrows,
    (R.W z v * R.get_sliceY v z (m / R.nxyz)) *
      ∑ i ∈ Finset.range R.nxy,
        R.get_sliceM v z i ((m % R.nxyz : ℕ) : ℤ) * r (R.get_grad_idx v z * R.nxy + i)

/-- Euclidean dot product of the first `n` entries of two vectors. -/
def dotN (n : ℕ) (a b : ℕ → α) : α := ∑ k ∈ Finset.range n, a k * b k

/-! ### Index bookkeeping helpers -/

theorem sum_range_mul {M : Type} [AddCommMonoid M] (f : ℕ → M) (m n : ℕ) :
    ∑ k ∈ Finset.range (m * n), f k = ∑ g ∈ Finset.range m, ∑ i ∈ Finset.range n, f (g * n + i) := by
  induction m with
  | zero => simp
  | succ m ih =>
    have h1 : (m + 1) * n = m * n + n := by ring
    have h2 : ∑ k ∈ Finset.range (m * n + n), f k
        = ∑ k ∈ Finset.range (m * n), f k + ∑ i ∈ Finset.range n, f (m * n + i) := by
      rw [Finset.range_eq_Ico, ← Finset.sum_Ico_consecutive f (Nat.zero_le (m * n)) (Nat.le_add_right _ n)]
      rw [← Finset.range_eq_Ico, Finset.sum_Ico_eq_sum_range]
      simp
    rw [h1, h2, ih, Finset.sum_range_succ]

theorem decode_div {g i n : ℕ} (hn : 0 < n) (hi : i < n) : (g * n + i) / n = g := by
  have h : g * n + i = i + n * g := by ring
  rw [h, Nat.add_mul_div_left _ _ hn, Nat.div_eq_of_lt hi, Nat.zero_add]

theorem decode_mod {g i n : ℕ} (hi : i < n) : (g * n + i) % n = i := by
  have h : g * n + i = i + n * g := by ring
  rw [h, Nat.add_mul_mod_self_left, Nat.mod_eq_of_lt hi]

theorem grad_idx_lt {v z nv nz : ℕ} (hv : v < nv) (hz : z < nz) : v * nz + z < nv * nz := by
  calc v * nz + z < v * nz + nz := by omega
  _ = (v + 1) * nz := by ring
  _ ≤ nv * nz := Nat.mul_le_mul_right nz hv

theorem slice_entry_lt {v z i nv nz nxy : ℕ} (hv : v < nv) (hz : z < nz) (hi : i < nxy) :
    (v * nz + z) * nxy + i < nv * nz * nxy := by
  calc (v * nz + z) * nxy + i < (v * nz + z) * nxy + nxy := by omega
  _ = (v * nz + z + 1) * nxy := by ring
  _ ≤ nv * nz * nxy := Nat.mul_le_mul_right nxy (grad_idx_lt hv hz)

/-! ### C1: adjoint exactness -/

theorem forwardProd_decode (R : ReconMatrix α) (x : ℕ → α) (g i : ℕ)
    (hxy : 0 < R.nxy) (hi : i < R.nxy) :
    R.forwardProd x (g * R.nxy + i)
      = ∑ v ∈ Finset.range R.Wcols, ∑ z ∈ Finset.range R.Wrows,
          if R.get_grad_idx v z = g then R.sliceForward v z x i else 0 := by
  unfold ReconMatrix.forwardProd
  rw [decode_div hxy hi, decode_mod hi]

theorem adjointProd_decode (R : ReconMatrix α) (r : ℕ → α) (j l : ℕ)
    (hxyz : 0 < R.nxyz) (hl : l < R.nxyz) :
    R.adjointProd r (j * R.nxyz + l)
      = ∑ v ∈ Finset.range R.Wcols, ∑ z ∈ Finset.range R.Wrows,
          (R.W z v * R.get_sliceY v z j) *
            ∑ i ∈ Finset.range R.nxy,
              R.get_sliceM v z i (l : ℤ) * r (R.get_grad_idx v z * R.nxy + i) := by
  unfold ReconMatrix.adjointProd
  rw [decode_div hxyz hl, decode_mod hl]

/-- The common five-fold sum both dot products reduce to. -/
def bilinForm (R : ReconMatrix α) (x r : ℕ → α) : α :=
  ∑ v ∈ Finset.range R.nv, ∑ z ∈ Finset.range R.nz, ∑ j ∈ Finset.range R.nc,
    ∑ i ∈ Finset.range R.nxy, ∑ l ∈ Finset.range R.nxyz,
      R.W z v * R.get_sliceY v z j * R.get_sliceM v z i (l : ℤ) *
        x (j * R.nxyz + l) * r ((v * R.nz + z) * R.nxy + i)

theorem sum_rot3 {M : Type} [AddCommMonoid M] {s1 s2 s3 : Finset ℕ} (f : ℕ → ℕ → ℕ → M) :
    (∑ a ∈ s1, ∑ b ∈ s2, ∑ c ∈ s3, f a b c)
      = ∑ b ∈ s2, ∑ c ∈ s3, ∑ a ∈ s1, f a b c := by
  rw [Finset.sum_comm]
  exact Finset.sum_congr rfl fun b _ => Finset.sum_comm

theorem sum_rot4 {M : Type} [AddCommMonoid M] {s1 s2 s3 s4 : Finset ℕ} (f : ℕ → ℕ → ℕ → ℕ → M) :
    (∑ a ∈ s1, ∑ b ∈ s2, ∑ c ∈ s3, ∑ d ∈ s4, f a b c d)
      = ∑ b ∈ s2, ∑ c ∈ s3, ∑ d ∈ s4, ∑ a ∈ s1, f a b c d := by
  rw [Finset.sum_comm]
  exact Finset.sum_congr rfl fun b _ => sum_rot3 (fun a c d => f a b c d)

theorem sum_rot5 {M : Type} [AddCommMonoid M] {s1 s2 s3 s4 s5 : Finset ℕ}
    (f : ℕ → ℕ → ℕ → ℕ → ℕ → M) :
    (∑ a ∈ s1, ∑ b ∈ s2, ∑ c ∈ s3, ∑ d ∈ s4, ∑ e ∈ s5, f a b c d e)
      = ∑ b ∈ s2, ∑ c ∈ s3, ∑ d ∈ s4, ∑ e ∈ s5, ∑ a ∈ s1, f a b c d e := by
  rw [Finset.sum_comm]
  exact Finset.sum_congr rfl fun b _ => sum_rot4 (fun a c d e => f a b c d e)

theorem dot_forward_eq (R : ReconMatrix α) (x r : ℕ → α)
    (hc : R.Wcols = R.nv) (hw : R.Wrows = R.nz)
    (hxy : 0 < R.nxy) :
    dotN R.rows (R.forwardProd x) r = bilinForm R x r := by
  unfold dotN ReconMatrix.rows
  rw [sum_range_mul (fun k => R.forwardProd x k * r k) (R.nv * R.nz) R.nxy]
  calc
    ∑ g ∈ Finset.range (R.nv * R.nz), ∑ i ∈ Finset.range R.nxy,
        R.forwardProd x (g * R.nxy + i) * r (g * R.nxy + i)
      = ∑ g ∈ Finset.range (R.nv * R.nz), ∑ i ∈ Finset.range R.nxy,
          ∑ v ∈ Finset.range R.nv, ∑ z ∈ Finset.range R.nz,
            (if R.get_grad_idx v z = g then R.sliceForward v z x i * r (g * R.nxy + i) else 0) := by
        refine Finset.sum_congr rfl fun g _ => Finset.sum_congr rfl fun i hi => ?_
        rw [forwardProd_decode R x g i hxy (Finset.mem_range.mp hi), hc, hw, Finset.sum_mul]
        refine Finset.sum_congr rfl fun v _ => ?_
        rw [Finset.sum_mul]
        exact Finset.sum_congr rfl fun z _ => by rw [ite_mul, zero_mul]
    _ = ∑ i ∈ Finset.range R.nxy, ∑ v ∈ Finset.range R.nv, ∑ z ∈ Finset.range R.nz,
          ∑ g ∈ Finset.range (R.nv * R.nz),
            (if R.get_grad_idx v z = g then R.sliceForward v z x i * r (g * R.nxy + i) else 0) :=
        sum_rot4 (fun g i v z =>
          if R.get_grad_idx v z = g then R.sliceForward v z x i * r (g * R.nxy + i) else 0)
    _ = ∑ v ∈ Finset.range R.nv, ∑ z ∈ Finset.range R.nz, ∑ g ∈ Finset.range (R.nv * R.nz),
          ∑ i ∈ Finset.range R.nxy,
            (if R.get_grad_idx v z = g then R.sliceForward v z x i * r (g * R.nxy + i) else 0) :=
        sum_rot4 (fun i v z g =>
          if R.get_grad_idx v z = g then R.sliceForward v z x i * r (g * R.nxy + i) else 0)
    _ = ∑ v ∈ Finset.range R.nv, ∑ z ∈ Finset.range R.nz, ∑ i ∈ Finset.range R.nxy,
          R.sliceForward v z x i * r ((v * R.nz + z) * R.nxy + i) := by
        refine Finset.sum_congr rfl fun v hv => Finset.sum_congr rfl fun z hz => ?_
        rw [Finset.sum_comm]
        refine Finset.sum_congr rfl fun i _ => ?_
        rw [Finset.sum_ite_eq (Finset.range (R.nv * R.nz)) (R.get_grad_idx v z)
          (fun g => R.sliceForward v z x i * r (g * R.nxy + i))]
        have hmem : R.get_grad_idx v z ∈ Finset.range (R.nv * R.nz) :=
          Finset.mem_range.mpr (grad_idx_lt (Finset.mem_range.mp hv) (Finset.mem_range.mp hz))
        rw [if_pos hmem]
        rfl
    _ = bilinForm R x r := by
        unfold bilinForm ReconMatrix.sliceForward
        refine Finset.sum_congr rfl fun v _ => Finset.sum_congr rfl fun z _ => ?_
        calc
          ∑ i ∈ Finset.range R.nxy,
              (∑ j ∈ Finset.range R.nc,
                (R.W z v * R.get_sliceY v z j) *
                  ∑ l ∈ Finset.range R.nxyz, R.get_sliceM v z i (l : ℤ) * x (j * R.nxyz + l)) *
                r ((v * R.nz + z) * R.nxy + i)
            = ∑ i ∈ Finset.range R.nxy, ∑ j ∈ Finset.range R.nc, ∑ l ∈ Finset.range R.nxyz,
                R.W z v * R.get_sliceY v z j * R.get_sliceM v z i (l : ℤ) *
                  x (j * R.nxyz + l) * r ((v * R.nz + z) * R.nxy + i) := by
              refine Finset.sum_congr rfl fun i _ => ?_
              rw [Finset.sum_mul]
              refine Finset.sum_congr rfl fun j _ => ?_
              rw [Finset.mul_sum, Finset.sum_mul]
              exact Finset.sum_congr rfl fun l _ => by ring
          _ = ∑ j ∈ Finset.range R.nc, ∑ i ∈ Finset.range R.nxy, ∑ l ∈ Finset.range R.nxyz,
                R.W z v * R.get_sliceY v z j * R.get_sliceM v z i (l : ℤ) *
                  x (j * R.nxyz + l) * r ((v * R.nz + z) * R.nxy + i) := Finset.sum_comm

theorem dot_adjoint_eq (R : ReconMatrix α) (x r : ℕ → α)
    (hc : R.Wcols = R.nv) (hw : R.Wrows = R.nz)
    (hxyz : 0 < R.nxyz) :
    dotN R.cols x (R.adjointProd r) = bilinForm R x r := by
  unfold dotN
  have hcols : R.cols = R.nc * R.nxyz := by
    unfold ReconMatrix.cols ReconMatrix.nxyz ReconMatrix.nxy
    ring
  rw [hcols, sum_range_mul (fun m => x m * R.adjointProd r m) R.nc R.nxyz]
  calc
    ∑ j ∈ Finset.range R.nc, ∑ l ∈ Finset.range R.nxyz,
        x (j * R.nxyz + l) * R.adjointProd r (j * R.nxyz + l)
      = ∑ j ∈ Finset.range R.nc, ∑ l ∈ Finset.range R.nxyz,
          ∑ v ∈ Finset.range R.nv, ∑ z ∈ Finset.range R.nz, ∑ i ∈ Finset.range R.nxy,
            R.W z v * R.get_sliceY v z j * R.get_sliceM v z i (l : ℤ) *
              x (j * R.nxyz + l) * r ((v * R.nz + z) * R.nxy + i) := by
        refine Finset.sum_congr rfl fun j _ => Finset.sum_congr rfl fun l hl => ?_
        rw [adjointProd_decode R r j l hxyz (Finset.mem_range.mp hl), hc, hw, Finset.mul_sum]
        refine Finset.sum_congr rfl fun v _ => ?_
        rw [Finset.mul_sum]
        refine Finset.sum_congr rfl fun z _ => ?_
        rw [Finset.mul_sum, Finset.mul_sum]
        refine Finset.sum_congr rfl fun i _ => ?_
        show x (j * R.nxyz + l) *
            ((R.W z v * R.get_sliceY v z j) *
              (R.get_sliceM v z i (l : ℤ) * r (R.get_grad_idx v z * R.nxy + i))) = _
        unfold ReconMatrix.get_grad_idx
        ring
    _ = ∑ l ∈ Finset.range R.nxyz, ∑ v ∈ Finset.range R.nv, ∑ z ∈ Finset.range R.nz,
          ∑ i ∈ Finset.range R.nxy, ∑ j ∈ Finset.range R.nc,
            R.W z v * R.get_sliceY v z j * R.get_sliceM v z i (l : ℤ) *
              x (j * R.nxyz + l) * r ((v * R.nz + z) * R.nxy + i) :=
        sum_rot5 (fun j l v z i =>
          R.W z v * R.get_sliceY v z j * R.get_sliceM v z i (l : ℤ) *
            x (j * R.nxyz + l) * r ((v * R.nz + z) * R.nxy + i))
    _ = ∑ v ∈ Finset.range R.nv, ∑ z ∈ Finset.range R.nz, ∑ i ∈ Finset.range R.nxy,
          ∑ j ∈ Finset.range R.nc, ∑ l ∈ Finset.range R.nxyz,
            R.W z v * R.get_sliceY v z j * R.get_sliceM v z i (l : ℤ) *
              x (j * R.nxyz + l) * r ((v * R.nz + z) * R.nxy + i) :=
        sum_rot5 (fun l v z i j =>
          R.W z v * R.get_sliceY v z j * R.get_sliceM v z i (l : ℤ) *
            x (j * R.nxyz + l) * r ((v * R.nz + z) * R.nxy + i))
    _ = bilinForm R x r := by
        unfold bilinForm
        refine Finset.sum_congr rfl fun v _ => Finset.sum_congr rfl fun z _ => ?_
        exact Finset.sum_comm

/-- C1.  Adjoint exactness: for every coefficient vector `x` (length
`cols = nxy*nz*nc`) and observation vector `r` (length `rows = nv*nz*nxy`),
`⟨A·x, r⟩ = ⟨x, Aᵀ·r⟩` in exact arithmetic: the adjoint scatters each slice
pixel through the transpose of the same per-slice matrix `M_{v,z}` and the
same `W(z,v)`-scaled design row `Y` as the forward map.  The hypotheses state
that the slice-weight matrix has the dimensions `nz × nv` that the pipeline
guarantees. -/
theorem C1_adjoint_dot_product (R : ReconMatrix α) (x r : ℕ → α)
    (hc : R.Wcols = R.nv) (hw : R.Wrows = R.nz) :
    dotN R.rows (R.forwardProd x) r = dotN R.cols x (R.adjointProd r) := by
  rcases Nat.eq_zero_or_pos R.nxy with hxy | hxy
  · have hrows : R.rows = 0 := by unfold ReconMatrix.rows; rw [hxy]; ring
    have hcols : R.cols = 0 := by unfold ReconMatrix.cols; rw [hxy]; ring
    rw [hrows, hcols]; simp [dotN]
  rcases Nat.eq_zero_or_pos R.nz with hz | hz
  · have hrows : R.rows = 0 := by unfold ReconMatrix.rows; rw [hz]; ring
    have hcols : R.cols = 0 := by unfold ReconMatrix.cols; rw [hz]; ring
    rw [hrows, hcols]; simp [dotN]
  have hxyz : 0 < R.nxyz := by unfold ReconMatrix.nxyz; exact Nat.mul_pos hxy hz
  rw [dot_forward_eq R x r hc hw hxy, dot_adjoint_eq R x r hc hw hxyz]

/-- A concrete witness wrapper: the simplest operator instance over `ℚ`
(all dimensions 1, identity grid transforms, zero motion, constant kernels,
unit weights and design row). -/
def Rbase : ReconMatrix ℚ :=
  { lmax := 0, nx := 1, ny := 1, nz := 1, nv := 1, nc := 1,
    motion := [MotionRow.zero], s2v := Aff3.id, v2s := Aff3.id,
    rotFn := fun _ _ _ => Mat3.one, ssp := fun _ => 1, sinc := fun _ => 1,
    Y := fun _ _ => 1, Wrows := 1, Wcols := 1, W := fun _ _ => 1 }

theorem C1_adjoint_dot_product_witness :
    Rbase.Wcols = Rbase.nv ∧ Rbase.Wrows = Rbase.nz ∧
      dotN Rbase.rows (Rbase.forwardProd fun _ => 1) (fun _ => 1)
        = dotN Rbase.cols (fun _ => 1) (Rbase.adjointProd fun _ => 1) :=
  ⟨rfl, rfl, C1_adjoint_dot_product Rbase (fun _ => 1) (fun _ => 1) rfl rfl⟩

/-- The observation-vector loading loop of `run()` (`dwirecon.cpp` lines
302-307): with the loop over axes 0..3 (x fastest, volume slowest), voxel `j`
has slice index `z_j = (j / (nx*ny)) % nz` and volume index
`v_j = j / (nx*ny*nz)`, and `y[j] = sqrt(Wsub(z_j, v_j) * Wvox[j]) *
dwisub.value()`. -/
noncomputable def loadY (nx ny nz : ℕ) (Wsub : ℕ → ℕ → ℝ) (Wvox data : ℕ → ℝ)
    (j : ℕ) : ℝ :=
  Real.sqrt (Wsub (j / (nx * ny) % nz) (j / (nx * ny * nz)) * Wvox j) * data j

/-- C2 (amended).  The weight factor the forward operator applies to the
output window of slice `(v,z)` is `W(z,v)` itself (the weighted slice
contribution is `W(z,v)` times the unweighted one), and the operator applies
no per-voxel weights; the square-root weighting `√(W_slice)·√(W_vox)` is
applied to the observation vector in `dwirecon.cpp`, not inside the
operator. -/
theorem C2_weight_factor (R : ReconMatrix ℝ) (v z : ℕ) (x : ℕ → ℝ) (i : ℕ) :
    (R.sliceForward v z x i
      = R.W z v * ∑ j ∈ Finset.range R.nc, R.get_sliceY v z j *
          ∑ l ∈ Finset.range R.nxyz, R.get_sliceM v z i (l : ℤ) * x (j * R.nxyz + l)) ∧
      ∀ (nx ny nz : ℕ) (Wsub : ℕ → ℕ → ℝ) (Wvox data : ℕ → ℝ) (j : ℕ),
        0 ≤ Wsub (j / (nx * ny) % nz) (j / (nx * ny * nz)) →
        loadY nx ny nz Wsub Wvox data j
          = Real.sqrt (Wsub (j / (nx * ny) % nz) (j / (nx * ny * nz)))
              * Real.sqrt (Wvox j) * data j := by
  constructor
  · unfold ReconMatrix.sliceForward
    rw [Finset.mul_sum]
    exact Finset.sum_congr rfl fun j _ => by ring
  · intro nx ny nz Wsub Wvox data j hW
    rw [loadY, Real.sqrt_mul hW]

/-- The `Rbase` instance with slice weight 4. -/
def R2w : ReconMatrix ℚ := { Rbase with W := fun _ _ => 4 }

set_option maxHeartbeats 2000000 in
/-- Concrete evaluation: on the all-dimensions-1 instance the slice matrix
entry `(0,0)` accumulates the SSP offsets `s = 0, 1, 2` (the offsets
`s = -1, -2` wrap to huge unsigned z-coordinates and fall out of bounds),
each with kernel weight 1, so the entry is `3`. -/
theorem Rbase_sliceM_eval : Rbase.get_sliceM 0 0 0 0 = 3 := by
  rw [ReconMatrix.get_sliceM]
  rw [show Finset.Icc (-2:ℤ) 2 = {-2,-1,0,1,2} from by decide,
      show Finset.Icc (-2:ℤ) 1 = {-2,-1,0,1} from by decide]
  simp only [Rbase, ReconMatrix.get_Ts2r, ReconMatrix.get_transform, ReconMatrix.inbounds,
    ReconMatrix.get_idx, ReconMatrix.nxy, Aff3.comp, Aff3.apply, Aff3.id, Mat3.mul, Mat3.mulVec,
    Mat3.one, MotionRow.zero, List.getD, List.length, List.get?, Finset.sum_range_one]
  norm_num [Finset.filter_insert, Finset.filter_singleton]

/-- C2, counterexample to the claim as stated: with `W_slice(0,0) = 4` and
`W_vox ≡ 1` the forward operator scales the slice by `4`, not by
`√4 · √1 = 2`: the weighted slice output is `12 = 4 · 3`, where `3` is the
unweighted value, and `12 ≠ 2 · 3`. -/
theorem C2_counterexample :
    R2w.sliceForward 0 0 (fun _ => 1) 0 = 12 ∧
      Rbase.sliceForward 0 0 (fun _ => 1) 0 = 3 ∧ (12 : ℚ) ≠ 2 * 3 := by
  have hM2 : R2w.get_sliceM 0 0 0 (0:ℤ) = 3 := Rbase_sliceM_eval
  refine ⟨?_, ?_, by norm_num⟩
  · rw [ReconMatrix.sliceForward]
    rw [show R2w.nc = 1 from rfl, show R2w.nxyz = 1 from rfl, Finset.sum_range_one,
      Finset.sum_range_one]
    rw [show ((0:ℕ) : ℤ) = (0:ℤ) from rfl, hM2]
    norm_num [R2w, Rbase, ReconMatrix.get_sliceY]
  · rw [ReconMatrix.sliceForward]
    rw [show Rbase.nc = 1 from rfl, show Rbase.nxyz = 1 from rfl, Finset.sum_range_one,
      Finset.sum_range_one]
    rw [show ((0:ℕ) : ℤ) = (0:ℤ) from rfl, Rbase_sliceM_eval]
    norm_num [Rbase, ReconMatrix.get_sliceY]

theorem grad_decode_inj {v z v' z' nz : ℕ} (hz : z < nz) (hz' : z' < nz)
    (h : v' * nz + z' = v * nz + z) : v' = v ∧ z' = z := by
  have h0 : 0 < nz := Nat.lt_of_le_of_lt (Nat.zero_le z) hz
  constructor
  · have := congrArg (· / nz) h
    simpa [decode_div h0 hz', decode_div h0 hz] using this
  · have := congrArg (· % nz) h
    simpa [decode_mod hz', decode_mod hz] using this

/-- C3 (amended).  The operator has shape `N_obs × (Nxyz·Nc)` with
`N_obs = Nx·Ny·Nz·Nv` only: `rows()` reports `N_obs = nv*nz*nxy` alone, and
the adjoint consumes only the `N_obs` observation entries of `r` — no
regularisation rows are produced by `A·x` or read by `Aᵀ·r` (this
`ReconMatrix` takes no regularisation parameters at all). -/
theorem C3_rows_obs_only (R : ReconMatrix α) (r r' : ℕ → α)
    (hc : R.Wcols = R.nv) (hw : R.Wrows = R.nz)
    (h : ∀ k, k < R.rows → r k = r' k) :
    R.rows = R.nx * R.ny * R.nz * R.nv ∧ R.adjointProd r = R.adjointProd r' := by
  constructor
  · unfold ReconMatrix.rows ReconMatrix.nxy
    ring
  · funext m
    unfold ReconMatrix.adjointProd
    refine Finset.sum_congr rfl fun v hv => Finset.sum_congr rfl fun z hz => ?_
    congr 1
    refine Finset.sum_congr rfl fun i hi => ?_
    congr 1
    apply h
    have hv' : v < R.nv := hc ▸ Finset.mem_range.mp hv
    have hz' : z < R.nz := hw ▸ Finset.mem_range.mp hz
    exact slice_entry_lt hv' hz' (Finset.mem_range.mp hi)

theorem C3_rows_obs_only_witness :
    Rbase.Wcols = Rbase.nv ∧ Rbase.Wrows = Rbase.nz ∧
      (Rbase.rows = Rbase.nx * Rbase.ny * Rbase.nz * Rbase.nv ∧
        Rbase.adjointProd (fun _ => 1) = Rbase.adjointProd (fun _ => 1)) :=
  ⟨rfl, rfl, C3_rows_obs_only Rbase (fun _ => 1) (fun _ => 1) rfl rfl (fun _ _ => rfl)⟩

/-- C3, counterexample to the claim as stated: on the all-dimensions-1
instance, `rows()` is `N_obs = nv*nz*nxy = 1`, not `N_obs + N_reg` where
`N_reg = 2·Nc·Nxyz = 2` is the count of the stacked regularisation rows
(`√reg·L` and `√zreg·L_z`, one block of `Nxyz` rows per coefficient channel
each) that the claim says are appended. -/
theorem C3_counterexample :
    Rbase.rows = 1 ∧ 2 * Rbase.nc * Rbase.nxyz = 2 ∧
      Rbase.rows ≠ Rbase.rows + 2 * Rbase.nc * Rbase.nxyz := by
  refine ⟨rfl, rfl, by decide⟩

/-- C6.  Weight zeroing: if `W_slice(z,v) = 0` then (a) the output window of
slice `(v,z)` in `A·x` is zero for every input `x`, and (b) `Aᵀ·r` does not
depend on the entries of `r` belonging to that slice (the observation
segment with `k / nxy = v*nz+z`). -/
theorem C6_weight_zeroing (R : ReconMatrix α) (v z : ℕ)
    (hw : R.Wrows = R.nz) (hz : z < R.nz) (h0 : R.W z v = 0) :
    (∀ (x : ℕ → α) (i : ℕ), i < R.nxy →
        R.forwardProd x ((v * R.nz + z) * R.nxy + i) = 0) ∧
      (∀ (r r' : ℕ → α), (∀ k, k / R.nxy ≠ v * R.nz + z → r k = r' k) →
        R.adjointProd r = R.adjointProd r') := by
  constructor
  · intro x i hi
    have hxy : 0 < R.nxy := Nat.lt_of_le_of_lt (Nat.zero_le i) hi
    rw [forwardProd_decode R x (v * R.nz + z) i hxy hi]
    refine Finset.sum_eq_zero fun v' _ => Finset.sum_eq_zero fun z' hz' => ?_
    by_cases hg : R.get_grad_idx v' z' = v * R.nz + z
    · rw [if_pos hg]
      have hz'' : z' < R.nz := hw ▸ Finset.mem_range.mp hz'
      obtain ⟨hv2, hz2⟩ := grad_decode_inj hz hz'' hg
      subst hv2; subst hz2
      unfold ReconMatrix.sliceForward
      refine Finset.sum_eq_zero fun j _ => ?_
      rw [h0, zero_mul, zero_mul]
    · rw [if_neg hg]
  · intro r r' h
    unfold ReconMatrix.adjointProd
    funext m
    refine Finset.sum_congr rfl fun v' _ => Finset.sum_congr rfl fun z' hz' => ?_
    by_cases hg : R.get_grad_idx v' z' = v * R.nz + z
    · have hz'' : z' < R.nz := hw ▸ Finset.mem_range.mp hz'
      obtain ⟨hv2, hz2⟩ := grad_decode_inj hz hz'' hg
      subst hv2; subst hz2
      simp [h0]
    · congr 1
      refine Finset.sum_congr rfl fun i hi => ?_
      congr 1
      apply h
      have hxy : 0 < R.nxy := Nat.lt_of_le_of_lt (Nat.zero_le i) (Finset.mem_range.mp hi)
      rw [decode_div hxy (Finset.mem_range.mp hi)]
      exact hg

/-- The `Rbase` instance with all slice weights zero. -/
def R6w : ReconMatrix ℚ := { Rbase with W := fun _ _ => 0 }

theorem C6_weight_zeroing_witness :
    R6w.Wrows = R6w.nz ∧ 0 < R6w.nz ∧ R6w.W 0 0 = 0 ∧
      ((∀ (x : ℕ → ℚ) (i : ℕ), i < R6w.nxy →
          R6w.forwardProd x ((0 * R6w.nz + 0) * R6w.nxy + i) = 0) ∧
        (∀ (r r' : ℕ → ℚ), (∀ k, k / R6w.nxy ≠ 0 * R6w.nz + 0 → r k = r' k) →
          R6w.adjointProd r = R6w.adjointProd r')) :=
  ⟨rfl, Nat.one_pos, rfl, C6_weight_zeroing R6w 0 0 rfl Nat.one_pos rfl⟩

/-! ### C5: coefficient count -/

/-- Modelled from the spec: `Math::SH::NforL`, the even-order real-SH
coefficient count `N_SH(l) = (l+1)(l+2)/2` (the `Math::SH` indexing utility
is an external collaborator of this repository; the spec's data model and
glossary give this formula).  On the arguments that occur (`l ≥ -2`) the
numerator is non-negative, so the rounding convention of `/` is immaterial
and matches the C++ integer division. -/
def NforL (l : ℤ) : ℤ := (l + 1) * (l + 2) / 2

/-- `get_ncoefs` (`recon.h` lines 294-304): `n = NforL(lmax)` when the
radial-basis list is empty, otherwise the accumulation
`n += NforL(min(2*(cols-1), lmax))` over the list of per-basis column
counts. -/
def get_ncoefs (lmax : ℤ) (rfcols : List ℕ) : ℤ :=
  if rfcols = [] then NforL lmax
  else rfcols.foldl (fun (n : ℤ) (c : ℕ) => n + NforL (min (2 * ((c : ℤ) - 1)) lmax)) 0

theorem foldl_add_eq_sum (f : ℕ → ℤ) (l : List ℕ) (a : ℤ) :
    l.foldl (fun n c => n + f c) a = a + (l.map f).sum := by
  induction l generalizing a with
  | nil => simp
  | cons c l ih => simp [List.foldl_cons, ih (a + f c)]; ring

/-- C5.  The number of q-space coefficients returned by `get_ncoefs` equals
`Σ_k N_SH(min(2·(cols(R_k)−1), l_max))` when the radial-basis list is
non-empty and `N_SH(l_max)` when it is empty, with
`N_SH(l) = (l+1)(l+2)/2`. -/
theorem C5_ncoefs_formula (lmax : ℤ) (rfcols : List ℕ) :
    get_ncoefs lmax rfcols =
      if rfcols = [] then (lmax + 1) * (lmax + 2) / 2
      else (rfcols.map fun (c : ℕ) =>
        (min (2 * ((c : ℤ) - 1)) lmax + 1) * (min (2 * ((c : ℤ) - 1)) lmax + 2) / 2).sum := by
  unfold get_ncoefs NforL
  by_cases h : rfcols = []
  · rw [if_pos h, if_pos h]
  · rw [if_neg h, if_neg h,
      foldl_add_eq_sum (fun c => (min (2 * ((c : ℤ) - 1)) lmax + 1) * (min (2 * ((c : ℤ) - 1)) lmax + 2) / 2) rfcols 0,
      zero_add]


/-! ### C7: motion matrix dimension checks -/

/-- The motion-matrix dimension checks of `run()` (`dwirecon.cpp` lines
135-139): `if (motion.size() && motion.cols() != 6) throw; if (motion.size()
&& ((dwi.size(3) * dwi.size(2)) % motion.rows())) throw`.  `motion.size()`
is `rows*cols`; the `&&` short-circuit keeps `%` from ever seeing zero
rows. -/
def motionCheckThrows (rows cols nv nz : ℕ) : Prop :=
  (rows * cols ≠ 0 ∧ cols ≠ 6) ∨ (rows * cols ≠ 0 ∧ (nv * nz) % rows ≠ 0)

/-- C7.  For a supplied (hence non-empty) motion matrix, setup aborts with
`InvalidArgument` exactly when the matrix does not have 6 columns or its row
count does not divide `Nv·Nz`; otherwise both checks pass and setup
proceeds. -/
theorem C7_motion_check (rows cols nv nz : ℕ) (hr : 0 < rows) (hc : 0 < cols) :
    motionCheckThrows rows cols nv nz ↔ (cols ≠ 6 ∨ ¬ rows ∣ nv * nz) := by
  have hs : rows * cols ≠ 0 := Nat.mul_ne_zero hr.ne' hc.ne'
  have hd : rows ∣ nv * nz ↔ (nv * nz) % rows = 0 := Nat.dvd_iff_mod_eq_zero
  unfold motionCheckThrows
  constructor
  · rintro (⟨-, h⟩ | ⟨-, h⟩)
    · exact Or.inl h
    · exact Or.inr fun hdvd => h (hd.mp hdvd)
  · rintro (h | h)
    · exact Or.inl ⟨hs, h⟩
    · exact Or.inr ⟨hs, fun hm => h (hd.mpr hm)⟩

theorem C7_motion_check_witness :
    (0 : ℕ) < 5 ∧ (0 : ℕ) < 6 ∧
      (motionCheckThrows 5 6 2 2 ↔ ((6 : ℕ) ≠ 6 ∨ ¬ (5 : ℕ) ∣ 2 * 2)) :=
  ⟨Nat.succ_pos 4, Nat.succ_pos 5, C7_motion_check 5 6 2 2 (Nat.succ_pos 4) (Nat.succ_pos 5)⟩

/-! ### C10: harmonic order selection -/

/-- The `lmax` accumulation of the `rf` option loop (`dwirecon.cpp` lines
148-157): starting from `lmax = 0`, each radial-basis matrix contributes
`lmax = max(2*(int(t.cols())-1), lmax)`. -/
def lmaxFromRf (rfcols : List ℕ) : ℤ :=
  rfcols.foldl (fun (m : ℤ) (c : ℕ) => max (2 * ((c : ℤ) - 1)) m) 0

/-- The harmonic order actually used (`dwirecon.cpp` lines 246-249): without
radial bases, the user option with default 4; with radial bases,
`min(lmax, user)` where the user option defaults to the accumulated
`lmax`. -/
def usedLmax (rfcols : List ℕ) (user : Option ℤ) : ℤ :=
  if rfcols = [] then user.getD 4
  else min (lmaxFromRf rfcols) (user.getD (lmaxFromRf rfcols))

theorem foldl_max_le (f : ℕ → ℤ) (l : List ℕ) (b : ℤ) :
    b ≤ l.foldl (fun (m : ℤ) (c : ℕ) => max (f c) m) b ∧
      ∀ c ∈ l, f c ≤ l.foldl (fun (m : ℤ) (c : ℕ) => max (f c) m) b := by
  induction l generalizing b with
  | nil => simp
  | cons a l ih =>
    refine ⟨le_trans (le_max_right (f a) b) (ih (max (f a) b)).1, ?_⟩
    intro c hc
    rcases List.mem_cons.mp hc with h | h
    · subst h
      exact le_trans (le_max_left (f c) b) (ih (max (f c) b)).1
    · exact (ih (max (f a) b)).2 c h

theorem foldl_max_mem (f : ℕ → ℤ) (l : List ℕ) (b : ℤ) :
    l.foldl (fun (m : ℤ) (c : ℕ) => max (f c) m) b = b ∨
      ∃ c ∈ l, l.foldl (fun (m : ℤ) (c : ℕ) => max (f c) m) b = f c := by
  induction l generalizing b with
  | nil => simp
  | cons a l ih =>
    rcases ih (max (f a) b) with h | ⟨c, hc, h⟩
    · rcases max_cases (f a) b with ⟨he, -⟩ | ⟨he, -⟩
      · exact Or.inr ⟨a, List.mem_cons_self a l, by rw [List.foldl_cons, h, he]⟩
      · exact Or.inl (by rw [List.foldl_cons, h, he])
    · exact Or.inr ⟨c, List.mem_cons_of_mem a hc, by rw [List.foldl_cons, h]⟩

/-- C10.  With at least one radial-basis matrix (each with at least one
column, as any parsed matrix has), the harmonic order used is
`min(max_k 2·(cols(R_k)−1), user)` where the user option defaults to that
maximum when absent: `lmaxFromRf` is exactly `max_k 2·(cols(R_k)−1)`
(upper bound and attained), and the `lmax` option can only lower the order,
never raise it above the band support of the radial bases. -/
theorem C10_lmax_cap (rfcols : List ℕ) (user : ℤ)
    (hne : rfcols ≠ []) (h1 : ∀ c ∈ rfcols, 1 ≤ c) :
    (∀ c ∈ rfcols, 2 * ((c : ℤ) - 1) ≤ lmaxFromRf rfcols) ∧
      (∃ c ∈ rfcols, lmaxFromRf rfcols = 2 * ((c : ℤ) - 1)) ∧
      usedLmax rfcols (some user) = min (lmaxFromRf rfcols) user ∧
      usedLmax rfcols none = lmaxFromRf rfcols ∧
      (∀ u : Option ℤ, usedLmax rfcols u ≤ lmaxFromRf rfcols) := by
  have hub := (foldl_max_le (fun c => 2 * ((c : ℤ) - 1)) rfcols 0).2
  refine ⟨hub, ?_, ?_, ?_, ?_⟩
  · rcases foldl_max_mem (fun c => 2 * ((c : ℤ) - 1)) rfcols 0 with h | ⟨c, hc, h⟩
    · obtain ⟨c0, hc0⟩ := List.exists_mem_of_ne_nil rfcols hne
      refine ⟨c0, hc0, le_antisymm ?_ ?_⟩
      · rw [lmaxFromRf, h]
        have := h1 c0 hc0
        have : (1 : ℤ) ≤ (c0 : ℤ) := by exact_mod_cast this
        linarith
      · exact hub c0 hc0
    · exact ⟨c, hc, h⟩
  · rw [usedLmax, if_neg hne]
    rfl
  · rw [usedLmax, if_neg hne]
    exact min_self _
  · intro u
    rw [usedLmax, if_neg hne]
    exact min_le_left _ _

theorem C10_lmax_cap_witness :
    ([3, 1] : List ℕ) ≠ [] ∧ (∀ c ∈ ([3, 1] : List ℕ), 1 ≤ c) ∧
      ((∀ c ∈ ([3, 1] : List ℕ), 2 * ((c : ℤ) - 1) ≤ lmaxFromRf [3, 1]) ∧
        (∃ c ∈ ([3, 1] : List ℕ), lmaxFromRf [3, 1] = 2 * ((c : ℤ) - 1)) ∧
        usedLmax [3, 1] (some 2) = min (lmaxFromRf [3, 1]) 2 ∧
        usedLmax [3, 1] none = lmaxFromRf [3, 1] ∧
        (∀ u : Option ℤ, usedLmax [3, 1] u ≤ lmaxFromRf [3, 1])) :=
  ⟨by simp, by decide, C10_lmax_cap [3, 1] 2 (by simp) (by decide)⟩

/-! ### C8: output image layout -/

/-- The output coefficient-image header written by `run()`
(`dwirecon.cpp` lines 356-379): dimensionality, the sizes of axes 3 and 4,
and the `shells` / `shellcounts` key-values (modelled as the lists whose
comma-separated renderings the code stores). -/
structure MsshHeader (β : Type) where
  ndim : ℕ
  size3 : ℕ
  size4 : ℕ
  keyShells : List β
  keyShellcounts : List ℕ

/-- The output header construction (`dwirecon.cpp` lines 356-379):
`msshhdr.ndim() = 5`, `size(3) = shells.count()`, `size(4) = padding`, and
both metadata keys are written.  The radial-basis list is passed to record
its (non-)use: the code has no single-shell branch here, so the header does
not depend on `rf`. -/
def outputHeader (rf : List (List ℕ)) (bvals : List α) (counts : List ℕ)
    (padding : ℕ) : MsshHeader α :=
  ⟨5, bvals.length, padding, bvals, counts⟩

/-- The per-voxel output write loop (`dwirecon.cpp` lines 383-393): the
zero-initialised padded vector `sh` gets `sh.head(NforL(lmax)) =
shellbasis(k)ᵀ · c` where `c = x.segment(voxel*ncoefs, ncoefs)`, so axis-4
entry `a` holds the transposed-basis product below `NforL(lmax)` and the
zero padding above it. -/
def outCoef (lmax : ℤ) (ncoefs : ℕ) (basis : ℕ → ℕ → ℕ → α) (xv : ℕ → α)
    (voxel k a : ℕ) : α :=
  if a < (NforL lmax).toNat then
    ∑ t ∈ Finset.range ncoefs, basis k t a * xv (voxel * ncoefs + t)
  else 0

/-- C8, counterexample to the claim as stated: in single-shell mode
(`rf = []`, here with a single shell and `padding = 6`) the written image is
still 5-dimensional, not 4-dimensional as the claim requires. -/
theorem C8_counterexample :
    (outputHeader [] [(0 : ℚ)] [1] 6).ndim = 5 ∧
      (outputHeader [] [(0 : ℚ)] [1] 6).ndim ≠ 4 :=
  ⟨rfl, by decide⟩

/-- C8 (amended).  In both modes (`rf` empty or not) the written coefficient
image is 5-D with axis 3 = shell index (size `|S|`), axis 4 = SH
coefficients (size `padding`), the metadata keys `shells` (b-values) and
`shellcounts` (volume counts) are always written, and axis-4 entries at or
beyond `NforL(lmax)` hold the zero padding. -/
theorem C8_output_layout (rf : List (List ℕ)) (bvals : List α) (counts : List ℕ)
    (padding : ℕ) (lmax : ℤ) (ncoefs : ℕ) (basis : ℕ → ℕ → ℕ → α) (xv : ℕ → α) :
    (outputHeader rf bvals counts padding).ndim = 5 ∧
      (outputHeader rf bvals counts padding).size3 = bvals.length ∧
      (outputHeader rf bvals counts padding).size4 = padding ∧
      (outputHeader rf bvals counts padding).keyShells = bvals ∧
      (outputHeader rf bvals counts padding).keyShellcounts = counts ∧
      ∀ voxel k a : ℕ, (NforL lmax).toNat ≤ a →
        outCoef lmax ncoefs basis xv voxel k a = 0 := by
  refine ⟨rfl, rfl, rfl, rfl, rfl, fun voxel k a ha => ?_⟩
  rw [outCoef, if_neg (not_lt.mpr ha)]

theorem C8_output_layout_witness :
    (NforL 0).toNat ≤ 1 ∧
      ((outputHeader [] [(0 : ℚ)] [1] 6).ndim = 5 ∧
        (outputHeader [] [(0 : ℚ)] [1] 6).size3 = [(0 : ℚ)].length ∧
        (outputHeader [] [(0 : ℚ)] [1] 6).size4 = 6 ∧
        (outputHeader [] [(0 : ℚ)] [1] 6).keyShells = [(0 : ℚ)] ∧
        (outputHeader [] [(0 : ℚ)] [1] 6).keyShellcounts = [1] ∧
        ∀ voxel k a : ℕ, (NforL 0).toNat ≤ a →
          outCoef 0 1 (fun _ _ _ => (1 : ℚ)) (fun _ => 1) voxel k a = 0) :=
  ⟨by decide, C8_output_layout [] [(0 : ℚ)] [1] 6 0 1 (fun _ _ _ => 1) (fun _ => 1)⟩

/-! ### C4: slice matrix geometry -/

theorem rowcol_inj {x x' y y' nx : ℕ} (hx : x < nx) (hx' : x' < nx)
    (h : y * nx + x = y' * nx + x') : y = y' ∧ x = x' := by
  have h0 : 0 < nx := Nat.lt_of_le_of_lt (Nat.zero_le x) hx
  constructor
  · have := congrArg (· / nx) h
    simpa [decode_div h0 hx, decode_div h0 hx'] using this
  · have := congrArg (· % nx) h
    simpa [decode_mod hx, decode_mod hx'] using this

theorem get_idx_inj (R : ReconMatrix α) {p q : Vec3 ℤ}
    (hp : R.inbounds p) (hq : R.inbounds q) (h : R.get_idx p = R.get_idx q) : p = q := by
  obtain ⟨hp1, hp2, hp3, hp4, hp5, hp6⟩ := hp
  obtain ⟨hq1, hq2, hq3, hq4, hq5, hq6⟩ := hq
  have hnx : (0 : ℤ) < (R.nx : ℤ) := lt_of_le_of_lt hp1 hp2
  have hny : (0 : ℤ) < (R.ny : ℤ) := lt_of_le_of_lt hp3 hp4
  have hform : ∀ u : Vec3 ℤ, R.get_idx u = u.1 + (R.nx : ℤ) * (u.2.1 + (R.ny : ℤ) * u.2.2) := by
    intro u
    unfold ReconMatrix.get_idx ReconMatrix.nxy
    push_cast
    ring
  rw [hform p, hform q] at h
  have e1 : p.1 = q.1 := by
    have h1 := congrArg (fun t => t % (R.nx : ℤ)) h
    simp only at h1
    rwa [Int.add_mul_emod_self_left, Int.add_mul_emod_self_left,
      Int.emod_eq_of_lt hp1 hp2, Int.emod_eq_of_lt hq1 hq2] at h1
  have h2 : p.2.1 + (R.ny : ℤ) * p.2.2 = q.2.1 + (R.ny : ℤ) * q.2.2 := by
    rw [e1] at h
    exact mul_left_cancel₀ (ne_of_gt hnx) (add_left_cancel h)
  have e2 : p.2.1 = q.2.1 := by
    have h3 := congrArg (fun t => t % (R.ny : ℤ)) h2
    simp only at h3
    rwa [Int.add_mul_emod_self_left, Int.add_mul_emod_self_left,
      Int.emod_eq_of_lt hp3 hp4, Int.emod_eq_of_lt hq3 hq4] at h3
  have e3 : p.2.2 = q.2.2 := by
    rw [e2] at h2
    exact mul_left_cancel₀ (ne_of_gt hny) (add_left_cancel h2)
  exact Prod.ext_iff.mpr ⟨e1, Prod.ext_iff.mpr ⟨e2, e3⟩⟩

/-- Collapsing the 4×4×4 sinc-cube scatter of `get_sliceM` at a fixed target
voxel `q`: summing the guarded contributions over the cube offsets from `c`
yields exactly the weight at `q` when `q` lies in the cube, and zero
otherwise. -/
theorem cube_collapse (R : ReconMatrix α) (c q : Vec3 ℤ) (w : Vec3 ℤ → α)
    (hq : R.inbounds q) :
    (∑ rx ∈ Finset.Icc (-2 : ℤ) 1, ∑ ry ∈ Finset.Icc (-2 : ℤ) 1, ∑ rz ∈ Finset.Icc (-2 : ℤ) 1,
        if R.inbounds (c.1 + rx, c.2.1 + ry, c.2.2 + rz) ∧
            R.get_idx q = R.get_idx (c.1 + rx, c.2.1 + ry, c.2.2 + rz) then
          w (c.1 + rx, c.2.1 + ry, c.2.2 + rz)
        else 0)
      = if q.1 - c.1 ∈ Finset.Icc (-2 : ℤ) 1 ∧ q.2.1 - c.2.1 ∈ Finset.Icc (-2 : ℤ) 1 ∧
            q.2.2 - c.2.2 ∈ Finset.Icc (-2 : ℤ) 1 then w q else 0 := by
  have hiff : ∀ p : Vec3 ℤ,
      (R.inbounds p ∧ R.get_idx q = R.get_idx p) ↔ p = q := by
    intro p
    constructor
    · rintro ⟨hp, hidx⟩
      exact get_idx_inj R hp hq hidx.symm
    · rintro rfl
      exact ⟨hq, rfl⟩
  have point : ∀ rx ry rz : ℤ,
      (if R.inbounds (c.1 + rx, c.2.1 + ry, c.2.2 + rz) ∧
          R.get_idx q = R.get_idx (c.1 + rx, c.2.1 + ry, c.2.2 + rz) then
        w (c.1 + rx, c.2.1 + ry, c.2.2 + rz)
      else 0)
        = if rx = q.1 - c.1 then
            (if ry = q.2.1 - c.2.1 then
              (if rz = q.2.2 - c.2.2 then w (c.1 + rx, c.2.1 + ry, c.2.2 + rz) else 0)
            else 0)
          else 0 := by
    intro rx ry rz
    have hpq : ((c.1 + rx, c.2.1 + ry, c.2.2 + rz) : Vec3 ℤ) = q ↔
        (rx = q.1 - c.1 ∧ ry = q.2.1 - c.2.1 ∧ rz = q.2.2 - c.2.2) := by
      rw [Prod.ext_iff, Prod.ext_iff]
      dsimp only
      omega
    rw [if_congr ((hiff _).trans hpq) rfl rfl, ite_and, ite_and]
  calc
    (∑ rx ∈ Finset.Icc (-2 : ℤ) 1, ∑ ry ∈ Finset.Icc (-2 : ℤ) 1, ∑ rz ∈ Finset.Icc (-2 : ℤ) 1,
        if R.inbounds (c.1 + rx, c.2.1 + ry, c.2.2 + rz) ∧
            R.get_idx q = R.get_idx (c.1 + rx, c.2.1 + ry, c.2.2 + rz) then
          w (c.1 + rx, c.2.1 + ry, c.2.2 + rz)
        else 0)
      = ∑ rx ∈ Finset.Icc (-2 : ℤ) 1, ∑ ry ∈ Finset.Icc (-2 : ℤ) 1, ∑ rz ∈ Finset.Icc (-2 : ℤ) 1,
          (if rx = q.1 - c.1 then
            (if ry = q.2.1 - c.2.1 then
              (if rz = q.2.2 - c.2.2 then w (c.1 + rx, c.2.1 + ry, c.2.2 + rz) else 0)
            else 0)
          else 0) := by
        exact Finset.sum_congr rfl fun rx _ => Finset.sum_congr rfl fun ry _ =>
          Finset.sum_congr rfl fun rz _ => point rx ry rz
    _ = ∑ rx ∈ Finset.Icc (-2 : ℤ) 1, ∑ ry ∈ Finset.Icc (-2 : ℤ) 1,
          (if rx = q.1 - c.1 then
            (if ry = q.2.1 - c.2.1 then
              (if q.2.2 - c.2.2 ∈ Finset.Icc (-2 : ℤ) 1 then
                w (c.1 + rx, c.2.1 + ry, c.2.2 + (q.2.2 - c.2.2)) else 0)
            else 0)
          else 0) := by
        refine Finset.sum_congr rfl fun rx _ => Finset.sum_congr rfl fun ry _ => ?_
        by_cases h1 : rx = q.1 - c.1
        · by_cases h2 : ry = q.2.1 - c.2.1
          · simp only [h1, h2, if_pos rfl]
            exact Finset.sum_ite_eq' (Finset.Icc (-2 : ℤ) 1) (q.2.2 - c.2.2)
              (fun rz => w (c.1 + (q.1 - c.1), c.2.1 + (q.2.1 - c.2.1), c.2.2 + rz))
          · simp [h1, h2]
        · simp [h1]
    _ = ∑ rx ∈ Finset.Icc (-2 : ℤ) 1,
          (if rx = q.1 - c.1 then
            (if q.2.1 - c.2.1 ∈ Finset.Icc (-2 : ℤ) 1 then
              (if q.2.2 - c.2.2 ∈ Finset.Icc (-2 : ℤ) 1 then
                w (c.1 + rx, c.2.1 + (q.2.1 - c.2.1), c.2.2 + (q.2.2 - c.2.2)) else 0)
            else 0)
          else 0) := by
        refine Finset.sum_congr rfl fun rx _ => ?_
        by_cases h1 : rx = q.1 - c.1
        · simp only [h1, if_pos rfl]
          exact Finset.sum_ite_eq' (Finset.Icc (-2 : ℤ) 1) (q.2.1 - c.2.1)
            (fun ry => if q.2.2 - c.2.2 ∈ Finset.Icc (-2 : ℤ) 1 then
              w (c.1 + (q.1 - c.1), c.2.1 + ry, c.2.2 + (q.2.2 - c.2.2)) else 0)
        · simp [h1]
    _ = if q.1 - c.1 ∈ Finset.Icc (-2 : ℤ) 1 then
          (if q.2.1 - c.2.1 ∈ Finset.Icc (-2 : ℤ) 1 then
            (if q.2.2 - c.2.2 ∈ Finset.Icc (-2 : ℤ) 1 then
              w (c.1 + (q.1 - c.1), c.2.1 + (q.2.1 - c.2.1), c.2.2 + (q.2.2 - c.2.2)) else 0)
          else 0)
        else 0 :=
        Finset.sum_ite_eq' (Finset.Icc (-2 : ℤ) 1) (q.1 - c.1)
          (fun rx => if q.2.1 - c.2.1 ∈ Finset.Icc (-2 : ℤ) 1 then
            (if q.2.2 - c.2.2 ∈ Finset.Icc (-2 : ℤ) 1 then
              w (c.1 + rx, c.2.1 + (q.2.1 - c.2.1), c.2.2 + (q.2.2 - c.2.2)) else 0)
          else 0)
    _ = if q.1 - c.1 ∈ Finset.Icc (-2 : ℤ) 1 ∧ q.2.1 - c.2.1 ∈ Finset.Icc (-2 : ℤ) 1 ∧
            q.2.2 - c.2.2 ∈ Finset.Icc (-2 : ℤ) 1 then w q else 0 := by
        rw [ite_and, ite_and]
        have hq' : ((c.1 + (q.1 - c.1), c.2.1 + (q.2.1 - c.2.1), c.2.2 + (q.2.2 - c.2.2)) :
            Vec3 ℤ) = q := by
          rw [Prod.ext_iff, Prod.ext_iff]
          dsimp only
          omega
        rw [hq']

/-- The entry of `get_sliceM` at row `(x,y)` and column `get_idx q` for an
in-bounds voxel `q`: each SSP offset `s` contributes `ssp(s) * sinc(pr − q)`
exactly when `q` lies in the 4×4×4 cube of offsets `-2..1` from `⌈pr⌉`, where
`pr` is the transform of the source point — whose z-coordinate is `(z+s)`
reduced modulo `2^64` (the C++ computes it in `size_t` arithmetic). -/
theorem sliceM_entry_characterisation (R : ReconMatrix α) (v z x y : ℕ) (q : Vec3 ℤ)
    (hx : x < R.nx) (hy : y < R.ny) (hq : R.inbounds q) :
    R.get_sliceM v z (y * R.nx + x) (R.get_idx q)
      = ∑ s ∈ Finset.Icc (-2 : ℤ) 2,
          (let pr : Vec3 α := (R.get_Ts2r v z).apply
              ((x : α), (y : α), ((((z : ℤ) + s) % 2 ^ 64 : ℤ) : α))
           if q.1 - ⌈pr.1⌉ ∈ Finset.Icc (-2 : ℤ) 1 ∧
               q.2.1 - ⌈pr.2.1⌉ ∈ Finset.Icc (-2 : ℤ) 1 ∧
               q.2.2 - ⌈pr.2.2⌉ ∈ Finset.Icc (-2 : ℤ) 1 then
             R.ssp s * R.sinc (pr.1 - (q.1 : α), pr.2.1 - (q.2.1 : α), pr.2.2 - (q.2.2 : α))
           else 0) := by
  rw [ReconMatrix.get_sliceM]
  rw [Finset.sum_eq_single_of_mem y (Finset.mem_range.mpr hy) ?hy0]
  case hy0 =>
    intro b _ hb
    refine Finset.sum_eq_zero fun x' hx' => Finset.sum_eq_zero fun s _ =>
      Finset.sum_eq_zero fun rx _ => Finset.sum_eq_zero fun ry _ =>
      Finset.sum_eq_zero fun rz _ => ?_
    refine if_neg fun hcond => ?_
    exact hb ((rowcol_inj hx (Finset.mem_range.mp hx') hcond.1).1.symm)
  rw [Finset.sum_eq_single_of_mem x (Finset.mem_range.mpr hx) ?hx0]
  case hx0 =>
    intro b hb' hb
    refine Finset.sum_eq_zero fun s _ => Finset.sum_eq_zero fun rx _ =>
      Finset.sum_eq_zero fun ry _ => Finset.sum_eq_zero fun rz _ => ?_
    refine if_neg fun hcond => ?_
    exact hb ((rowcol_inj hx (Finset.mem_range.mp hb') hcond.1).2.symm)
  refine Finset.sum_congr rfl fun s _ => ?_
  calc
    (∑ rx ∈ Finset.Icc (-2 : ℤ) 1, ∑ ry ∈ Finset.Icc (-2 : ℤ) 1, ∑ rz ∈ Finset.Icc (-2 : ℤ) 1,
        let ps : Vec3 α := ((x : α), (y : α), ((((z : ℤ) + s) % 2 ^ 64 : ℤ) : α))
        let pr : Vec3 α := (R.get_Ts2r v z).apply ps
        let p : Vec3 ℤ := (⌈pr.1⌉ + rx, ⌈pr.2.1⌉ + ry, ⌈pr.2.2⌉ + rz)
        if y * R.nx + x = y * R.nx + x ∧ R.inbounds p ∧ R.get_idx q = R.get_idx p then
          R.ssp s * R.sinc (pr.1 - (p.1 : α), pr.2.1 - (p.2.1 : α), pr.2.2 - (p.2.2 : α))
        else 0)
      = ∑ rx ∈ Finset.Icc (-2 : ℤ) 1, ∑ ry ∈ Finset.Icc (-2 : ℤ) 1, ∑ rz ∈ Finset.Icc (-2 : ℤ) 1,
          (let pr : Vec3 α := (R.get_Ts2r v z).apply
              ((x : α), (y : α), ((((z : ℤ) + s) % 2 ^ 64 : ℤ) : α))
           let p : Vec3 ℤ := (⌈pr.1⌉ + rx, ⌈pr.2.1⌉ + ry, ⌈pr.2.2⌉ + rz)
           if R.inbounds p ∧ R.get_idx q = R.get_idx p then
             R.ssp s * R.sinc (pr.1 - (p.1 : α), pr.2.1 - (p.2.1 : α), pr.2.2 - (p.2.2 : α))
           else 0) := by
        refine Finset.sum_congr rfl fun rx _ => Finset.sum_congr rfl fun ry _ =>
          Finset.sum_congr rfl fun rz _ => ?_
        exact if_congr (and_iff_right rfl) rfl rfl
    _ = (let pr : Vec3 α := (R.get_Ts2r v z).apply
            ((x : α), (y : α), ((((z : ℤ) + s) % 2 ^ 64 : ℤ) : α))
         if q.1 - ⌈pr.1⌉ ∈ Finset.Icc (-2 : ℤ) 1 ∧
             q.2.1 - ⌈pr.2.1⌉ ∈ Finset.Icc (-2 : ℤ) 1 ∧
             q.2.2 - ⌈pr.2.2⌉ ∈ Finset.Icc (-2 : ℤ) 1 then
           R.ssp s * R.sinc (pr.1 - (q.1 : α), pr.2.1 - (q.2.1 : α), pr.2.2 - (q.2.2 : α))
         else 0) := by
        exact cube_collapse R
          (⌈((R.get_Ts2r v z).apply ((x : α), (y : α), ((((z : ℤ) + s) % 2 ^ 64 : ℤ) : α))).1⌉,
           ⌈((R.get_Ts2r v z).apply ((x : α), (y : α), ((((z : ℤ) + s) % 2 ^ 64 : ℤ) : α))).2.1⌉,
           ⌈((R.get_Ts2r v z).apply ((x : α), (y : α), ((((z : ℤ) + s) % 2 ^ 64 : ℤ) : α))).2.2⌉)
          q
          (fun p => R.ssp s * R.sinc
            (((R.get_Ts2r v z).apply ((x : α), (y : α), ((((z : ℤ) + s) % 2 ^ 64 : ℤ) : α))).1
                - (p.1 : α),
             ((R.get_Ts2r v z).apply ((x : α), (y : α), ((((z : ℤ) + s) % 2 ^ 64 : ℤ) : α))).2.1
                - (p.2.1 : α),
             ((R.get_Ts2r v z).apply ((x : α), (y : α), ((((z : ℤ) + s) % 2 ^ 64 : ℤ) : α))).2.2
                - (p.2.2 : α)))
          hq

/-- Modelled from the spec: the slice matrix exactly as §4.4 words it, with
the source point `p_s = (x', y', z_slice + s)` formed in ordinary integer
arithmetic — the only difference from `get_sliceM`, whose C++ computes the
z-coordinate `z+s` in `size_t` arithmetic (wrapping modulo `2^64` when
`z + s < 0`). -/
def specSliceM (R : ReconMatrix α) (v z : ℕ) (i : ℕ) (j : ℤ) : α :=
  ∑ y ∈ Finset.range R.ny, ∑ x ∈ Finset.range R.nx,
    ∑ s ∈ Finset.Icc (-2 : ℤ) 2,
      ∑ rx ∈ Finset.Icc (-2 : ℤ) 1, ∑ ry ∈ Finset.Icc (-2 : ℤ) 1, ∑ rz ∈ Finset.Icc (-2 : ℤ) 1,
        let ps : Vec3 α := ((x : α), (y : α), (((z : ℤ) + s : ℤ) : α))
        let pr : Vec3 α := (R.get_Ts2r v z).apply ps
        let p : Vec3 ℤ := (⌈pr.1⌉ + rx, ⌈pr.2.1⌉ + ry, ⌈pr.2.2⌉ + rz)
        if i = y * R.nx + x ∧ R.inbounds p ∧ j = R.get_idx p then
          R.ssp s * R.sinc (pr.1 - (p.1 : α), pr.2.1 - (p.2.1 : α), pr.2.2 - (p.2.2 : α))
        else 0

/-- The `Rbase` instance on a 1×1×4 grid whose slice-to-recon transform
translates by +2 along z (via `T0.scanner2voxel`; motion is zero). -/
def R4w : ReconMatrix ℚ :=
  { Rbase with nz := 4, s2v := ⟨Mat3.one, (0, 0, 2)⟩ }

set_option maxHeartbeats 4000000 in
/-- On `R4w`, slice `(0,0)`, pixel `(0,0)`, voxel `(0,0,0)`: the code's
`size_t` computation of `z+s` wraps the offsets `s = -2, -1` to huge
z-coordinates that land out of bounds, so only `s = 0` contributes and the
entry is `1`. -/
theorem R4w_sliceM_eval : R4w.get_sliceM 0 0 0 0 = 1 := by
  rw [ReconMatrix.get_sliceM]
  rw [show Finset.Icc (-2:ℤ) 2 = {-2,-1,0,1,2} from by decide,
      show Finset.Icc (-2:ℤ) 1 = {-2,-1,0,1} from by decide]
  simp only [R4w, Rbase, ReconMatrix.get_Ts2r, ReconMatrix.get_transform, ReconMatrix.inbounds,
    ReconMatrix.get_idx, ReconMatrix.nxy, Aff3.comp, Aff3.apply, Aff3.id, Mat3.mul, Mat3.mulVec,
    Mat3.one, MotionRow.zero, List.getD, List.length, List.get?, Finset.sum_range_one]
  norm_num [Finset.filter_insert, Finset.filter_singleton]

set_option maxHeartbeats 4000000 in
/-- On the same input, the spec's slice matrix (true integer `z+s`) also
collects the contributions of `s = -2` and `s = -1`, whose transformed
source points `(0,0,0)` and `(0,0,1)` are in bounds: the entry is `3`. -/
theorem R4w_specSliceM_eval : specSliceM R4w 0 0 0 0 = 3 := by
  rw [specSliceM]
  rw [show Finset.Icc (-2:ℤ) 2 = {-2,-1,0,1,2} from by decide,
      show Finset.Icc (-2:ℤ) 1 = {-2,-1,0,1} from by decide]
  simp only [R4w, Rbase, ReconMatrix.get_Ts2r, ReconMatrix.get_transform, ReconMatrix.inbounds,
    ReconMatrix.get_idx, ReconMatrix.nxy, Aff3.comp, Aff3.apply, Aff3.id, Mat3.mul, Mat3.mulVec,
    Mat3.one, MotionRow.zero, List.getD, List.length, List.get?, Finset.sum_range_one]
  norm_num [Finset.filter_insert, Finset.filter_singleton]

/-- C4.  Divergence of the code from the claimed geometry at the failing
input: on a 1×1×4 grid with the slice-to-recon transform translating by +2
in z, the entry of `get_sliceM` at slice `(0,0)`, pixel `(0,0)`, voxel
`(0,0,0)` is `1`, while the claim's source points `p_s = (x', y', z+s)`
(offsets `s = -2..2` in integer arithmetic, as the spec states) give `3`:
the C++ computes `z+s` in `size_t` arithmetic, so for `z = 0` the offsets
`s < 0` wrap to `2^64 + s` and their contributions are lost. -/
theorem C4_zplus_s_wraps :
    R4w.get_sliceM 0 0 0 0 = 1 ∧ specSliceM R4w 0 0 0 0 = 3 ∧ (1 : ℚ) ≠ 3 :=
  ⟨R4w_sliceM_eval, R4w_specSliceM_eval, by norm_num⟩

/-! ### C9: zero motion defaults -/

/-- Rotation about the unit X axis (`Eigen::AngleAxisf(a, UnitX())`). -/
noncomputable def rotX (a : ℝ) : Mat3 ℝ :=
  ⟨1, 0, 0, 0, Real.cos a, -Real.sin a, 0, Real.sin a, Real.cos a⟩

/-- Rotation about the unit Y axis (`Eigen::AngleAxisf(a, UnitY())`). -/
noncomputable def rotY (a : ℝ) : Mat3 ℝ :=
  ⟨Real.cos a, 0, Real.sin a, 0, 1, 0, -Real.sin a, 0, Real.cos a⟩

/-- Rotation about the unit Z axis (`Eigen::AngleAxisf(a, UnitZ())`). -/
noncomputable def rotZ (a : ℝ) : Mat3 ℝ :=
  ⟨Real.cos a, -Real.sin a, 0, Real.sin a, Real.cos a, 0, 0, 0, 1⟩

/-- `get_rotation(a1,a2,a3)` (`recon.h` lines 248-255): the intrinsic
X-then-Y-then-Z Euler rotation `AngleAxis(a1,X) * AngleAxis(a2,Y) *
AngleAxis(a3,Z)`. -/
noncomputable def get_rotation (a1 a2 a3 : ℝ) : Mat3 ℝ :=
  ((rotX a1).mul (rotY a2)).mul (rotZ a3)

/-- The motion table with its default (`dwirecon.cpp` lines 128-133): when
the `motion` option is absent, `Eigen::MatrixXf::Zero(dwi.size(3), 6)`. -/
def motionOrDefault (opt : Option (List (MotionRow ℝ))) (nv : ℕ) : List (MotionRow ℝ) :=
  opt.getD (List.replicate nv MotionRow.zero)

/-- `init_Y` (`recon.h` lines 215-245), the design-row table: entry `(i,j,c)`
is row `i*nz+j`, column `c` of `Y`.  `rot` starts as the identity, is set
from row `i` when `motion.rows() == nv`, and is overwritten from row
`i*nz+j` when `motion.rows() == nv*nz` (when `nz = 1` both branches read the
same row, so testing `nv*nz` first is equivalent to the code's sequential
assignments; when neither matches `rot` keeps its identity initialisation).
`Math::SH::delta` and the shell classification are external collaborators,
passed as `delta`, `basis` (the `shellbasis` matrices) and `shellidx`;
`nSH = NforL(lmax)` is the length of the delta vector. -/
noncomputable def init_Y (nv nz : ℕ) (motion : List (MotionRow ℝ))
    (rotFn : ℝ → ℝ → ℝ → Mat3 ℝ) (grad : ℕ → Vec3 ℝ) (basis : ℕ → ℕ → ℕ → ℝ)
    (shellidx : ℕ → ℕ) (delta : Vec3 ℝ → ℕ → ℝ) (nSH : ℕ) (i j c : ℕ) : ℝ :=
  let rot : Mat3 ℝ :=
    if motion.length = nv * nz then
      rotFn (motion.getD (i * nz + j) MotionRow.zero).rx
        (motion.getD (i * nz + j) MotionRow.zero).ry
        (motion.getD (i * nz + j) MotionRow.zero).rz
    else if motion.length = nv then
      rotFn (motion.getD i MotionRow.zero).rx
        (motion.getD i MotionRow.zero).ry
        (motion.getD i MotionRow.zero).rz
    else Mat3.one
  ∑ k ∈ Finset.range nSH, basis (shellidx i) c k * delta (rot.mulVec (grad i)) k

theorem getD_replicate_self {β : Type} (d : β) (n k : ℕ) :
    (List.replicate n d).getD k d = d := by
  induction n generalizing k with
  | zero => rfl
  | succ n ih =>
    cases k with
    | zero => rfl
    | succ k => exact ih k

theorem Mat3.mul_one_right [CommRing β] (M : Mat3 β) : M.mul Mat3.one = M := by
  obtain ⟨a, b, c, d, e, f, g, h, i⟩ := M
  simp [Mat3.mul, Mat3.one]

theorem Mat3.one_mulVec [CommRing β] (u : Vec3 β) : (Mat3.one : Mat3 β).mulVec u = u := by
  obtain ⟨u1, u2, u3⟩ := u
  simp [Mat3.mulVec, Mat3.one]

theorem Aff3.comp_id_right [CommRing β] (T : Aff3 β) :
    T.comp ⟨Mat3.one, (0, 0, 0)⟩ = T := by
  obtain ⟨L, t1, t2, t3⟩ := T
  obtain ⟨a, b, c, d, e, f, g, h, i⟩ := L
  simp [Aff3.comp, Aff3.apply, Mat3.mul, Mat3.one, Mat3.mulVec]

theorem get_rotation_zero : get_rotation 0 0 0 = Mat3.one := by
  simp [get_rotation, rotX, rotY, rotZ, Mat3.mul, Mat3.one]

/-- C9.  Zero-motion defaults: when the `motion` option is absent the table
defaults to the `Nv × 6` zero matrix; a zero motion row yields the identity
rotation and identity rigid transform, so every slice-to-recon transform
collapses to `T0.scanner2voxel * T0.voxel2scanner`, and every design row of
`init_Y` evaluates the SH delta at the unrotated gradient direction. -/
theorem C9_zero_motion_defaults (R : ReconMatrix ℝ)
    (hm : R.motion = List.replicate R.nv MotionRow.zero)
    (hr : R.rotFn = get_rotation)
    (mv mz nSH : ℕ) (grad : ℕ → Vec3 ℝ) (basis : ℕ → ℕ → ℕ → ℝ)
    (shellidx : ℕ → ℕ) (delta : Vec3 ℝ → ℕ → ℝ) :
    motionOrDefault none R.nv = List.replicate R.nv MotionRow.zero ∧
      get_rotation 0 0 0 = Mat3.one ∧
      (∀ v z, R.get_Ts2r v z = R.s2v.comp R.v2s) ∧
      (∀ i j c, init_Y mv mz (List.replicate mv MotionRow.zero) get_rotation
          grad basis shellidx delta nSH i j c
        = ∑ k ∈ Finset.range nSH, basis (shellidx i) c k * delta (grad i) k) := by
  refine ⟨rfl, get_rotation_zero, ?_, ?_⟩
  · intro v z
    have hlen : R.motion.length = R.nv := by rw [hm, List.length_replicate]
    rw [ReconMatrix.get_Ts2r, if_pos hlen, hm, getD_replicate_self]
    have htr : R.get_transform MotionRow.zero = ⟨Mat3.one, (0, 0, 0)⟩ := by
      rw [ReconMatrix.get_transform, hr]
      exact congrArg₂ Aff3.mk get_rotation_zero rfl
    rw [htr, Aff3.comp_id_right]
  · intro i j c
    rw [init_Y]
    have hrot : (if (List.replicate mv (MotionRow.zero : MotionRow ℝ)).length = mv * mz then
        get_rotation ((List.replicate mv MotionRow.zero).getD (i * mz + j) MotionRow.zero).rx
          ((List.replicate mv MotionRow.zero).getD (i * mz + j) MotionRow.zero).ry
          ((List.replicate mv MotionRow.zero).getD (i * mz + j) MotionRow.zero).rz
      else if (List.replicate mv (MotionRow.zero : MotionRow ℝ)).length = mv then
        get_rotation ((List.replicate mv MotionRow.zero).getD i MotionRow.zero).rx
          ((List.replicate mv MotionRow.zero).getD i MotionRow.zero).ry
          ((List.replicate mv MotionRow.zero).getD i MotionRow.zero).rz
      else Mat3.one) = Mat3.one := by
      rw [getD_replicate_self, getD_replicate_self]
      by_cases h1 : (List.replicate mv (MotionRow.zero : MotionRow ℝ)).length = mv * mz
      · rw [if_pos h1]
        exact get_rotation_zero
      · rw [if_neg h1, if_pos (List.length_replicate mv MotionRow.zero)]
        exact get_rotation_zero
    rw [hrot]
    exact Finset.sum_congr rfl fun k _ => by rw [Mat3.one_mulVec]

/-- A concrete instance over `ℝ` with the default zero motion table and the
real `get_rotation`, for the C9 witness. -/
noncomputable def R9w : ReconMatrix ℝ :=
  { lmax := 0, nx := 1, ny := 1, nz := 1, nv := 2, nc := 1,
    motion := List.replicate 2 MotionRow.zero,
    s2v := ⟨Mat3.one, (0, 0, 0)⟩, v2s := ⟨Mat3.one, (0, 0, 0)⟩,
    rotFn := get_rotation, ssp := fun _ => 1, sinc := fun _ => 1,
    Y := fun _ _ => 1, Wrows := 1, Wcols := 2, W := fun _ _ => 1 }

theorem C9_zero_motion_defaults_witness :
    R9w.motion = List.replicate R9w.nv MotionRow.zero ∧ R9w.rotFn = get_rotation ∧
      (motionOrDefault none R9w.nv = List.replicate R9w.nv MotionRow.zero ∧
        get_rotation 0 0 0 = Mat3.one ∧
        (∀ v z, R9w.get_Ts2r v z = R9w.s2v.comp R9w.v2s) ∧
        (∀ i j c, init_Y 2 1 (List.replicate 2 MotionRow.zero) get_rotation
            (fun _ => (1, 0, 0)) (fun _ _ _ => 1) (fun _ => 0) (fun _ _ => 1) 1 i j c
          = ∑ k ∈ Finset.range 1, (fun (_ : ℕ) (_ : ℕ) (_ : ℕ) => (1 : ℝ)) 0 c k *
              (fun (_ : Vec3 ℝ) (_ : ℕ) => (1 : ℝ)) ((fun (_ : ℕ) => ((1 : ℝ), (0 : ℝ), (0 : ℝ))) i) k)) :=
  ⟨rfl, rfl, C9_zero_motion_defaults R9w rfl rfl 2 1 1
    (fun _ => (1, 0, 0)) (fun _ _ _ => 1) (fun _ => 0) (fun _ _ => 1)⟩

theorem C2_weight_factor_witness :
    (R9w.sliceForward 0 0 (fun _ => 1) 0
      = R9w.W 0 0 * ∑ j ∈ Finset.range R9w.nc, R9w.get_sliceY 0 0 j *
          ∑ l ∈ Finset.range R9w.nxyz,
            R9w.get_sliceM 0 0 0 (l : ℤ) * (fun _ => (1 : ℝ)) (j * R9w.nxyz + l)) ∧
      (0 : ℝ) ≤ 1 ∧
      loadY 1 1 1 (fun _ _ => 1) (fun _ => 1) (fun _ => 1) 0
        = Real.sqrt 1 * Real.sqrt 1 * 1 :=
  ⟨(C2_weight_factor R9w 0 0 (fun _ => 1) 0).1, zero_le_one,
   (C2_weight_factor R9w 0 0 (fun _ => 1) 0).2 1 1 1
     (fun _ _ => 1) (fun _ => 1) (fun _ => 1) 0 zero_le_one⟩
